import Mathlib

/-!
# Verification of the Python-Automation-Tools repository

A shallow embedding, in Lean 4, of the parts of the repository that the
specification talks about:

* `src/automation_tools/file_organizer.py` — the `FileOrganizer` class:
  extension classification (`_get_category`), construction-time validation
  (`_validate_directory`), and the `organize` operation with its
  collision-avoiding move loop, in both apply and dry-run mode.
* `src/automation_tools/pdf_merger.py` — the `PDFMerger.merge` operation and
  its `_delete_original_files` stub.
* `src/automation_tools/image_resizer.py` — the `ImageResizer.resize_image`
  operation and its output-path derivation.

Python strings are modelled as Lean `String`s (lists of characters),
filesystem directories as association lists from entry names to nodes, and
machine behaviour that can raise exceptions as `Except`/explicit error
results.  Python's decimal rendering of the collision counter
(`f"..._{counter}..."`) is modelled by `Nat.repr`, for which injectivity is
proved below.
-/

/-! ## String utilities mirroring Python's `str` / `pathlib` operations -/

/-- Python `str.lower()` (character-wise lowering; faithful on the ASCII
extension strings the repository compares against). -/
def lowerString (s : String) : String := ⟨s.data.map Char.toLower⟩

/-- Python `str.upper()` (character-wise). -/
def upperString (s : String) : String := ⟨s.data.map Char.toUpper⟩

/-- Index of the last occurrence of `c` in `l` (Python `str.rfind`, with
`none` for Python's `-1`). -/
def rfindIdx (c : Char) : List Char → Option Nat
  | [] => none
  | a :: as =>
    match rfindIdx c as with
    | some i => some (i + 1)
    | none => if a = c then some 0 else none

/-- CPython `pathlib.PurePath` splits a file name into stem and suffix at the
last dot, provided that dot is neither the first nor the last character:
`i = name.rfind('.'); if 0 < i < len(name) - 1: (name[:i], name[i:]) else
(name, '')`. -/
def pySplitExt (name : List Char) : List Char × List Char :=
  match rfindIdx '.' name with
  | some i => if 0 < i ∧ i + 1 < name.length then (name.take i, name.drop i) else (name, [])
  | none => (name, [])

/-- Python `Path(...).stem` of a file name. -/
def pyStem (s : String) : String := ⟨(pySplitExt s.data).1⟩

/-- Python `Path(...).suffix` of a file name. -/
def pySuffix (s : String) : String := ⟨(pySplitExt s.data).2⟩

/-- Python `name.startswith('.')`, the organizer's hidden-file test: true
exactly when the first character is a dot. -/
def startsWithDot (s : String) : Bool :=
  match s.data with
  | c :: _ => c = '.'
  | [] => false

theorem pySplitExt_append (name : List Char) :
    (pySplitExt name).1 ++ (pySplitExt name).2 = name := by
  unfold pySplitExt
  cases h : rfindIdx '.' name with
  | none => simp
  | some i =>
    by_cases hc : 0 < i ∧ i + 1 < name.length
    · simp [hc, List.take_append_drop]
    · simp [hc]

theorem rfindIdx_getElem (c : Char) (l : List Char) (i : Nat) (h : rfindIdx c l = some i) :
    l[i]? = some c := by
  induction l generalizing i with
  | nil => simp [rfindIdx] at h
  | cons a as ih =>
    rw [rfindIdx] at h
    cases hr : rfindIdx c as with
    | some j =>
      rw [hr] at h
      obtain rfl : j + 1 = i := by simpa using h
      simpa using ih j hr
    | none =>
      rw [hr] at h
      by_cases ha : a = c
      · simp [ha] at h
        obtain rfl : 0 = i := h
        simp [ha]
      · simp [ha] at h

/-- The suffix computed by `pySplitExt` is empty or starts with a dot. -/
theorem pySplitExt_snd_shape (name : List Char) :
    (pySplitExt name).2 = [] ∨ ∃ rest, (pySplitExt name).2 = '.' :: rest := by
  unfold pySplitExt
  cases h : rfindIdx '.' name with
  | none => simp
  | some i =>
    by_cases hc : 0 < i ∧ i + 1 < name.length
    · right
      have hget : name[i]? = some '.' := rfindIdx_getElem '.' name i h
      have hlt : i < name.length := by omega
      have hdrop : name.drop i = name[i] :: name.drop (i + 1) :=
        List.drop_eq_getElem_cons hlt
      have hgi : name[i] = '.' := by
        have := List.getElem?_eq_getElem hlt
        rw [this] at hget
        exact Option.some.inj hget
      refine ⟨name.drop (i + 1), ?_⟩
      simp [hc, hdrop, hgi]
    · left; simp [hc]

/-! ## Injectivity of `Nat.repr`

Needed because the collision counter is rendered in decimal by the f-string
`f"{item.stem}_{counter}{item.suffix}"`; distinct counters yield distinct
candidate names. -/

/-- Reference decimal digit list of `n`, most significant digit first
(`decRep 0 = []`). -/
def decRep (n : Nat) : List Char :=
  if h : n = 0 then [] else decRep (n / 10) ++ [Nat.digitChar (n % 10)]
  termination_by n
  decreasing_by exact Nat.div_lt_self (Nat.pos_of_ne_zero h) (by decide)

theorem decRep_zero : decRep 0 = [] := by unfold decRep; simp

theorem decRep_pos {n : Nat} (h : n ≠ 0) :
    decRep n = decRep (n / 10) ++ [Nat.digitChar (n % 10)] := by
  conv_lhs => rw [decRep]
  simp [h]

theorem decRep_eq_nil_iff {n : Nat} : decRep n = [] ↔ n = 0 := by
  constructor
  · intro h
    by_contra hn
    rw [decRep_pos hn] at h
    simp at h
  · intro h; subst h; exact decRep_zero

theorem toDigitsCore_eq_decRep (fuel : Nat) :
    ∀ (n : Nat) (ds : List Char), n < fuel →
      Nat.toDigitsCore 10 fuel n ds = (if n = 0 then ['0'] else decRep n) ++ ds := by
  induction fuel with
  | zero => intro n ds h; omega
  | succ fuel ih =>
    intro n ds _
    rw [Nat.toDigitsCore]
    by_cases h0 : n / 10 = 0
    · simp only [h0, if_pos rfl]
      by_cases hn : n = 0
      · subst hn; simp [Nat.digitChar]
      · have hmod : n % 10 = n := by omega
        rw [decRep_pos hn, h0, decRep_zero, hmod]
        simp [hn]
    · have hn : n ≠ 0 := by intro h; subst h; simp at h0
      simp only [h0, if_neg h0]
      have hfuel : n / 10 < fuel := by
        have h1 : n / 10 < n := Nat.div_lt_self (Nat.pos_of_ne_zero hn) (by decide)
        omega
      rw [ih (n / 10) (Nat.digitChar (n % 10) :: ds) hfuel]
      rw [decRep_pos hn]
      simp [h0, hn]

theorem repr_eq_decRep (n : Nat) :
    Nat.repr n = List.asString (if n = 0 then ['0'] else decRep n) := by
  unfold Nat.repr Nat.toDigits
  rw [toDigitsCore_eq_decRep (n + 1) n [] (Nat.lt_succ_self n)]
  simp

theorem digitChar_inj_of_lt {a b : Nat} (ha : a < 10) (hb : b < 10)
    (h : Nat.digitChar a = Nat.digitChar b) : a = b := by
  interval_cases a <;> interval_cases b <;> revert h <;> decide

theorem decRep_injective : ∀ n m : Nat, decRep n = decRep m → n = m := by
  intro n
  induction n using Nat.strong_induction_on with
  | _ n ih =>
    intro m h
    by_cases hn : n = 0
    · subst hn
      rw [decRep_zero] at h
      exact (decRep_eq_nil_iff.mp h.symm).symm
    · by_cases hm : m = 0
      · subst hm
        rw [decRep_zero] at h
        exact absurd h (by simp [decRep_eq_nil_iff, hn])
      · rw [decRep_pos hn, decRep_pos hm] at h
        have h' : (decRep (n / 10)).concat (Nat.digitChar (n % 10)) =
            (decRep (m / 10)).concat (Nat.digitChar (m % 10)) := by
          simpa [List.concat_eq_append] using h
        obtain ⟨h1, h2⟩ := List.concat_inj.mp h'
        have hdiv : n / 10 = m / 10 :=
          ih (n / 10) (Nat.div_lt_self (Nat.pos_of_ne_zero hn) (by decide)) (m / 10) h1
        have hmod : n % 10 = m % 10 :=
          digitChar_inj_of_lt (Nat.mod_lt n (by decide)) (Nat.mod_lt m (by decide)) h2
        omega

theorem natRepr_injective : Function.Injective Nat.repr := by
  intro n m h
  rw [repr_eq_decRep, repr_eq_decRep] at h
  have hdata := congrArg String.data h
  simp only [List.asString] at hdata
  by_cases hn : n = 0
  · subst hn
    by_cases hm : m = 0
    · exact hm.symm
    · simp only [if_pos rfl, if_neg hm] at hdata
      rw [decRep_pos hm] at hdata
      have h' : (decRep (m / 10)).concat (Nat.digitChar (m % 10)) = List.concat [] '0' := by
        simpa [List.concat_eq_append] using hdata.symm
      obtain ⟨h1, h2⟩ := List.concat_inj.mp h'
      have hdiv : m / 10 = 0 := decRep_injective _ _ (by simpa [decRep_zero] using h1)
      have hmod : m % 10 = 0 :=
        digitChar_inj_of_lt (Nat.mod_lt m (by decide)) (by decide) (by simpa using h2)
      omega
  · by_cases hm : m = 0
    · subst hm
      simp only [if_neg hn, if_pos rfl] at hdata
      rw [decRep_pos hn] at hdata
      have h' : (decRep (n / 10)).concat (Nat.digitChar (n % 10)) = List.concat [] '0' := by
        simpa [List.concat_eq_append] using hdata
      obtain ⟨h1, h2⟩ := List.concat_inj.mp h'
      have hdiv : n / 10 = 0 := decRep_injective _ _ (by simpa [decRep_zero] using h1)
      have hmod : n % 10 = 0 :=
        digitChar_inj_of_lt (Nat.mod_lt n (by decide)) (by decide) (by simpa using h2)
      omega
    · simp only [if_neg hn, if_neg hm] at hdata
      exact decRep_injective _ _ hdata

theorem string_data_append (a b : String) : (a ++ b).data = a.data ++ b.data := by
  cases a; cases b; rfl

/-! ## FileOrganizer: static data and classification

Mirrors `src/automation_tools/file_organizer.py`.  `FILE_TYPES` keeps the
Python dict's insertion order; `getCategory` is `FileOrganizer._get_category`,
scanning the table in order and falling back to `"other"`. -/

def FILE_TYPES : List (String × List String) := [
  ("images", [".jpg", ".jpeg", ".png", ".gif", ".bmp", ".svg", ".webp"]),
  ("documents", [".pdf", ".doc", ".docx", ".txt", ".xlsx", ".pptx"]),
  ("videos", [".mp4", ".mov", ".avi", ".mkv", ".wmv"]),
  ("audio", [".mp3", ".wav", ".ogg", ".m4a"]),
  ("archives", [".zip", ".rar", ".7z", ".tar", ".gz"]),
  ("code", [".py", ".js", ".html", ".css", ".java", ".cpp", ".c", ".h"]),
  ("executables", [".exe", ".msi", ".dmg", ".pkg", ".deb"])]

def getCategoryAux : List (String × List String) → String → String
  | [], _ => "other"
  | (category, extensions) :: rest, ext =>
    if ext ∈ extensions then category else getCategoryAux rest ext

/-- `FileOrganizer._get_category`. -/
def getCategory (ext : String) : String := getCategoryAux FILE_TYPES ext

/-- `FileOrganizer._get_extension`: `file_path.suffix.lower()`. -/
def getExtension (name : String) : String := lowerString (pySuffix name)

/-- The category names `organize` can produce: the table's keys plus the
synthetic `"other"`. -/
def categoryNames : List String := FILE_TYPES.map Prod.fst ++ ["other"]

/-! ## FileOrganizer: construction-time validation

`FileOrganizer.__init__` resolves the path and calls `_validate_directory`,
which raises Python's builtin `FileNotFoundError` when the resolved path does
not exist and `NotADirectoryError` when it is not a directory.  The spec's
`DirectoryNotFoundError` is included as a constructor so the spec's claim can
be stated and compared. -/

inductive PyErr where
  | fileNotFoundError
  | notADirectoryError
  | directoryNotFoundError
  | valueError
  deriving DecidableEq, Repr

/-- `FileOrganizer._validate_directory`, over the two facts it consults about
the resolved path: whether it exists and whether it is a directory. -/
def validateDirectory (pathExists pathIsDir : Bool) : Except PyErr Unit :=
  if !pathExists then Except.error PyErr.fileNotFoundError
  else if !pathIsDir then Except.error PyErr.notADirectoryError
  else Except.ok ()

/-- `FileOrganizer.__init__`: resolves the path and validates it; the outcome
is that of `_validate_directory`. -/
def fileOrganizerInit (pathExists pathIsDir : Bool) : Except PyErr Unit :=
  validateDirectory pathExists pathIsDir

/-! ## FileOrganizer: filesystem model

A directory's contents are an association list from entry names to nodes;
a node is a regular file (with abstract content) or a subdirectory.  The
organizer only ever inspects the target directory and its immediate
subdirectories. -/

inductive Node where
  | file (content : String)
  | dir (entries : List (String × Node))

/-- Association-list lookup (first match wins, as a real directory has
distinct entry names). -/
def alookup {κ α : Type} [DecidableEq κ] : List (κ × α) → κ → Option α
  | [], _ => none
  | (m, v) :: rest, n => if m = n then some v else alookup rest n

/-- Remove the first entry with the given key. -/
def aerase {κ α : Type} [DecidableEq κ] : List (κ × α) → κ → List (κ × α)
  | [], _ => []
  | (m, v) :: rest, n => if m = n then rest else (m, v) :: aerase rest n

def isFileNode : Node → Bool
  | Node.file _ => true
  | Node.dir _ => false

def isDirNode : Option Node → Bool
  | some (Node.dir _) => true
  | _ => false

/-- `Path.is_dir()` for an immediate child of the target, consulting the live
directory state. -/
def isDirAt (fs : List (String × Node)) (n : String) : Bool :=
  isDirNode (alookup fs n)

/-- `dest_path.exists()` for `<target>/<cat>/<name>`: true when `cat` is an
existing subdirectory that contains `name`. -/
def destExists (fs : List (String × Node)) (cat name : String) : Bool :=
  match alookup fs cat with
  | some (Node.dir es) => (alookup es name).isSome
  | _ => false

/-- Number of entries of subdirectory `cat` (0 when absent or not a
directory); used as a fuel bound for the collision loop. -/
def dirLen (fs : List (String × Node)) (cat : String) : Nat :=
  match alookup fs cat with
  | some (Node.dir es) => es.length
  | _ => 0

/-- Append `(dn, nd)` to the contents of subdirectory `cat` (first entry of
that name; a file of that name is left unchanged). -/
def addToDir : List (String × Node) → String → String → Node → List (String × Node)
  | [], _, _, _ => []
  | (m, Node.dir es) :: rest, cat, dn, nd =>
    if m = cat then (m, Node.dir (es ++ [(dn, nd)])) :: rest
    else (m, Node.dir es) :: addToDir rest cat dn nd
  | (m, Node.file c) :: rest, cat, dn, nd =>
    if m = cat then (m, Node.file c) :: rest
    else (m, Node.file c) :: addToDir rest cat dn nd

/-! ## FileOrganizer: the collision loop and `organize` -/

/-- The candidate name `f"{item.stem}_{counter}{item.suffix}"`. -/
def mkCand (stem sfx : String) (k : Nat) : String :=
  stem ++ "_" ++ Nat.repr k ++ sfx

/-- The `while dest_path.exists(): dest_path = category_dir /
f"{item.stem}_{counter}{item.suffix}"; counter += 1` loop of
`FileOrganizer.organize` (apply mode), with explicit fuel; `organize` passes
fuel `dirLen fs cat + 1`, which the theorems below show suffices. -/
def collisionLoop (fs : List (String × Node)) (cat : String) (stem sfx : String) :
    Nat → Nat → String → String
  | 0, _, dest => dest
  | fuel + 1, counter, dest =>
    if destExists fs cat dest then
      collisionLoop fs cat stem sfx fuel (counter + 1) (mkCand stem sfx counter)
    else dest

/-- The state `organize` threads through its loop: the directory, the
`moved_files` mapping, the per-file move/preview log lines
(`(item.name, category, dest_path.name)`), and the names whose move raised
and was logged as an error. -/
structure OrgSt where
  fs : List (String × Node)
  result : List (String × List String)
  logs : List (String × String × String)
  errs : List String

/-- `moved_files = {category: [] for category in FILE_TYPES}; moved_files['other'] = []`. -/
def initResult : List (String × List String) :=
  FILE_TYPES.map (fun p => (p.1, ([] : List String))) ++ [("other", [])]

/-- `moved_files[category].append(name)`. -/
def appendResult : List (String × List String) → String → String → List (String × List String)
  | [], _, _ => []
  | (c, l) :: rest, cat, n =>
    if c = cat then (c, l ++ [n]) :: rest else (c, l) :: appendResult rest cat n

/-- One iteration of `organize`'s `for item in self.directory.iterdir()` body
for the snapshot entry named `item.1`.  `moveFails n = true` models
`shutil.move` raising for that entry (permissions, disk full, ...); a move
onto a destination whose parent is not an existing directory also raises. -/
def orgStep (dryRun : Bool) (moveFails : String → Bool) (st : OrgSt) (item : String × Node) :
    OrgSt :=
  let n := item.1
  if isDirAt st.fs n || startsWithDot n then st
  else
    let cat := getCategory (getExtension n)
    let fs1 := if (alookup st.fs cat).isSome || dryRun then st.fs
               else st.fs ++ [(cat, Node.dir [])]
    let destName := if dryRun then n
                    else collisionLoop fs1 cat (pyStem n) (pySuffix n) (dirLen fs1 cat + 1) 1 n
    if dryRun then
      { st with result := appendResult st.result cat n, logs := st.logs ++ [(n, cat, destName)] }
    else
      match alookup fs1 n with
      | some nd =>
        if isDirAt fs1 cat && !moveFails n then
          { fs := addToDir (aerase fs1 n) cat destName nd,
            result := appendResult st.result cat n,
            logs := st.logs ++ [(n, cat, destName)],
            errs := st.errs }
        else { st with fs := fs1, errs := st.errs ++ [n] }
      | none => { st with fs := fs1, errs := st.errs ++ [n] }

/-- `FileOrganizer.organize(dry_run)`: iterates over a snapshot of the target
directory's entries, classifying, (in apply mode) creating category
directories and moving files, and returns the final state. -/
def organize (dryRun : Bool) (moveFails : String → Bool) (fs : List (String × Node)) : OrgSt :=
  List.foldl (orgStep dryRun moveFails) ⟨fs, initResult, [], []⟩ fs

/-! ## Supporting lemmas: association lists and the collision loop -/

theorem alookup_isSome_mem {κ α : Type} [DecidableEq κ] (l : List (κ × α)) (k : κ)
    (h : (alookup l k).isSome) : k ∈ l.map Prod.fst := by
  induction l with
  | nil => simp [alookup] at h
  | cons p rest ih =>
    obtain ⟨m, v⟩ := p
    rw [alookup] at h
    by_cases hm : m = k
    · simp [hm]
    · simp [hm] at h
      simp [hm, ih h]

/-- The names present in subdirectory `cat` (what `destExists` consults). -/
def dirNames (fs : List (String × Node)) (cat : String) : List String :=
  match alookup fs cat with
  | some (Node.dir es) => es.map Prod.fst
  | _ => []

theorem destExists_true_mem (fs : List (String × Node)) (cat s : String)
    (h : destExists fs cat s = true) : s ∈ dirNames fs cat := by
  unfold destExists at h
  unfold dirNames
  cases hl : alookup fs cat with
  | none => rw [hl] at h; simp at h
  | some nd =>
    cases nd with
    | file c => rw [hl] at h; simp at h
    | dir es =>
      rw [hl] at h
      exact alookup_isSome_mem es s h

theorem dirNames_length (fs : List (String × Node)) (cat : String) :
    (dirNames fs cat).length = dirLen fs cat := by
  unfold dirNames dirLen
  cases alookup fs cat with
  | none => rfl
  | some nd => cases nd <;> simp

theorem mkCand_injective (stem sfx : String) : Function.Injective (mkCand stem sfx) := by
  intro i j h
  have hd := congrArg String.data h
  simp only [mkCand, string_data_append, List.append_assoc] at hd
  have h1 := List.append_cancel_left hd
  have h2 := List.append_cancel_left h1
  exact natRepr_injective (String.ext (List.append_cancel_right h2))

/-- Pigeonhole: among the candidates `_1 … _(dirLen+1)` at least one name is
free in the destination directory. -/
theorem exists_free_candidate (fs : List (String × Node)) (cat stem sfx : String) :
    ∃ k, 1 ≤ k ∧ k < 1 + (dirLen fs cat + 1) ∧
      destExists fs cat (mkCand stem sfx k) = false := by
  by_contra hcon
  push_neg at hcon
  have hall : ∀ k, 1 ≤ k → k ≤ dirLen fs cat + 1 →
      destExists fs cat (mkCand stem sfx k) = true := by
    intro k h1 h2
    have := hcon k h1 (by omega)
    revert this
    cases destExists fs cat (mkCand stem sfx k) <;> simp
  have hsub : Finset.image (mkCand stem sfx) (Finset.Icc 1 (dirLen fs cat + 1)) ⊆
      (dirNames fs cat).toFinset := by
    intro s hs
    obtain ⟨k, hk, rfl⟩ := Finset.mem_image.mp hs
    rw [Finset.mem_Icc] at hk
    exact List.mem_toFinset.mpr (destExists_true_mem _ _ _ (hall k hk.1 hk.2))
  have hcard1 : (Finset.image (mkCand stem sfx) (Finset.Icc 1 (dirLen fs cat + 1))).card =
      dirLen fs cat + 1 := by
    rw [Finset.card_image_of_injective _ (mkCand_injective stem sfx), Nat.card_Icc]
    omega
  have hcard2 := Finset.card_le_card hsub
  rw [hcard1] at hcard2
  have hlen : (dirNames fs cat).toFinset.card ≤ dirLen fs cat := by
    calc (dirNames fs cat).toFinset.card ≤ (dirNames fs cat).length :=
          List.toFinset_card_le _
      _ = dirLen fs cat := dirNames_length fs cat
  omega

theorem collisionLoop_of_free (fs : List (String × Node)) (cat stem sfx dest : String)
    (h : destExists fs cat dest = false) :
    ∀ fuel counter, collisionLoop fs cat stem sfx fuel counter dest = dest := by
  intro fuel counter
  cases fuel with
  | zero => rfl
  | succ fuel => rw [collisionLoop]; simp [h]

theorem collisionLoop_spec (fs : List (String × Node)) (cat stem sfx : String) :
    ∀ (fuel counter : Nat) (dest : String),
      destExists fs cat dest = true →
      (∃ k, counter ≤ k ∧ k < counter + fuel ∧
        destExists fs cat (mkCand stem sfx k) = false) →
      ∃ N, counter ≤ N ∧
        collisionLoop fs cat stem sfx fuel counter dest = mkCand stem sfx N ∧
        destExists fs cat (mkCand stem sfx N) = false ∧
        ∀ j, counter ≤ j → j < N → destExists fs cat (mkCand stem sfx j) = true := by
  intro fuel
  induction fuel with
  | zero =>
    intro counter dest _ hex
    obtain ⟨k, h1, h2, _⟩ := hex
    omega
  | succ fuel ih =>
    intro counter dest hd hex
    rw [collisionLoop]
    simp only [hd, if_true]
    by_cases hd' : destExists fs cat (mkCand stem sfx counter) = true
    · have hex' : ∃ k, counter + 1 ≤ k ∧ k < counter + 1 + fuel ∧
          destExists fs cat (mkCand stem sfx k) = false := by
        obtain ⟨k, h1, h2, h3⟩ := hex
        have hk : k ≠ counter := by
          intro he
          rw [he, hd'] at h3
          cases h3
        exact ⟨k, by omega, by omega, h3⟩
      obtain ⟨N, h1, h2, h3, h4⟩ := ih (counter + 1) (mkCand stem sfx counter) hd' hex'
      refine ⟨N, by omega, h2, h3, ?_⟩
      intro j hj1 hj2
      by_cases hjc : j = counter
      · rw [hjc]; exact hd'
      · exact h4 j (by omega) hj2
    · have hfree : destExists fs cat (mkCand stem sfx counter) = false := by
        revert hd'
        cases destExists fs cat (mkCand stem sfx counter) <;> simp
      refine ⟨counter, le_refl _, ?_, hfree, ?_⟩
      · exact collisionLoop_of_free fs cat stem sfx _ hfree fuel (counter + 1)
      · intro j hj1 hj2; omega

/-! ## Claim theorems: C1 – C5 -/

theorem getCategoryAux_of_absent (L : List (String × List String)) (e : String)
    (h : ∀ p ∈ L, e ∉ p.2) : getCategoryAux L e = "other" := by
  induction L with
  | nil => rfl
  | cons p rest ih =>
    obtain ⟨c, exts⟩ := p
    rw [getCategoryAux]
    have hne : e ∉ exts := h (c, exts) (List.mem_cons_self _ _)
    simp only [hne, if_false]
    exact ih (fun q hq => h q (List.mem_cons_of_mem _ hq))

/-- C1: every extension listed in the static `FILE_TYPES` table is classified
by `_get_category` into the category that owns it, and every extension absent
from every set of the table (the empty string included) is classified as the
literal `"other"`. -/
theorem getCategory_table_or_other :
    (∀ p ∈ FILE_TYPES, ∀ e ∈ p.2, getCategory e = p.1) ∧
    (∀ e : String, (∀ p ∈ FILE_TYPES, e ∉ p.2) → getCategory e = "other") := by
  constructor
  · decide
  · intro e he
    exact getCategoryAux_of_absent FILE_TYPES e he

/-- C2: in apply mode, the collision loop that `organize` runs for a file
whose destination name is taken (with the fuel `organize` passes) returns the
original name when it is free, and otherwise the first candidate
`{stem}_{N}{suffix}` with N counted up from 1 whose name is free at the
destination; the name finally chosen never exists at the destination. -/
theorem organize_collision_resolution (fs : List (String × Node)) (cat stem sfx name : String) :
    destExists fs cat
      (collisionLoop fs cat stem sfx (dirLen fs cat + 1) 1 name) = false ∧
    (destExists fs cat name = false →
      collisionLoop fs cat stem sfx (dirLen fs cat + 1) 1 name = name) ∧
    (destExists fs cat name = true →
      ∃ N, 1 ≤ N ∧
        collisionLoop fs cat stem sfx (dirLen fs cat + 1) 1 name = mkCand stem sfx N ∧
        destExists fs cat (mkCand stem sfx N) = false ∧
        ∀ j, 1 ≤ j → j < N → destExists fs cat (mkCand stem sfx j) = true) := by
  by_cases hd : destExists fs cat name = true
  · obtain ⟨N, h1, h2, h3, h4⟩ :=
      collisionLoop_spec fs cat stem sfx (dirLen fs cat + 1) 1 name hd
        (exists_free_candidate fs cat stem sfx)
    refine ⟨?_, ?_, ?_⟩
    · rw [h2]; exact h3
    · intro hfalse; rw [hd] at hfalse; cases hfalse
    · intro _; exact ⟨N, h1, h2, h3, h4⟩
  · have hfree : destExists fs cat name = false := by
      revert hd
      cases destExists fs cat name <;> simp
    have heq := collisionLoop_of_free fs cat stem sfx name hfree (dirLen fs cat + 1) 1
    refine ⟨?_, fun _ => heq, ?_⟩
    · rw [heq]; exact hfree
    · intro htrue; rw [htrue] at hfree; cases hfree

/-- C3 counterexample: at a resolved path that does not exist, construction
fails with Python's builtin `FileNotFoundError`, which is not the
`DirectoryNotFoundError` the claim names. -/
theorem organizerInit_missing_raises_fileNotFound :
    fileOrganizerInit false true = Except.error PyErr.fileNotFoundError ∧
    (Except.error PyErr.fileNotFoundError : Except PyErr Unit) ≠
      Except.error PyErr.directoryNotFoundError := by
  refine ⟨rfl, ?_⟩
  intro h
  cases h

/-- C3 (amended): construction fails with `FileNotFoundError` when the
resolved path does not exist, with `NotADirectoryError` when it exists but is
not a directory, and succeeds when it is an existing directory. -/
theorem organizerInit_validation (pathExists pathIsDir : Bool) :
    (pathExists = false →
      fileOrganizerInit pathExists pathIsDir = Except.error PyErr.fileNotFoundError) ∧
    (pathExists = true → pathIsDir = false →
      fileOrganizerInit pathExists pathIsDir = Except.error PyErr.notADirectoryError) ∧
    (pathExists = true → pathIsDir = true →
      fileOrganizerInit pathExists pathIsDir = Except.ok ()) := by
  cases pathExists <;> cases pathIsDir <;>
    simp [fileOrganizerInit, validateDirectory]

theorem orgStep_dry_fs (mf : String → Bool) (st : OrgSt) (item : String × Node) :
    (orgStep true mf st item).fs = st.fs := by
  unfold orgStep
  by_cases h : (isDirAt st.fs item.1 || startsWithDot item.1) = true
  · simp [h]
  · simp [h]

/-- C4: with `dry_run = true`, `organize` performs no filesystem mutation:
the directory state after the call is the state before it. -/
theorem organize_dryRun_no_mutation (fs : List (String × Node)) (moveFails : String → Bool) :
    (organize true moveFails fs).fs = fs := by
  suffices h : ∀ (items : List (String × Node)) (st : OrgSt),
      (List.foldl (orgStep true moveFails) st items).fs = st.fs by
    exact h fs ⟨fs, initResult, [], []⟩
  intro items
  induction items with
  | nil => intro st; rfl
  | cons i rest ih =>
    intro st
    rw [List.foldl_cons, ih, orgStep_dry_fs]

theorem orgStep_dry_logs (mf : String → Bool) (st : OrgSt) (item : String × Node) :
    (orgStep true mf st item).logs = st.logs ∨
    (orgStep true mf st item).logs =
      st.logs ++ [(item.1, getCategory (getExtension item.1), item.1)] := by
  unfold orgStep
  by_cases h : (isDirAt st.fs item.1 || startsWithDot item.1) = true
  · left; simp [h]
  · right; simp [h]

/-- C5 (amended): the collision loop's condition requires `not dry_run`, so
in preview mode it never executes: every `[DRY RUN] Would move` record
predicts the file's own, unsuffixed name as destination name, whatever
already exists on disk. -/
theorem organize_preview_dest_is_original (fs : List (String × Node))
    (moveFails : String → Bool) :
    ∀ r ∈ (organize true moveFails fs).logs, r.2.2 = r.1 := by
  suffices h : ∀ (items : List (String × Node)) (st : OrgSt),
      (∀ r ∈ st.logs, r.2.2 = r.1) →
      ∀ r ∈ (List.foldl (orgStep true moveFails) st items).logs, r.2.2 = r.1 by
    exact h fs ⟨fs, initResult, [], []⟩ (by intro r hr; simp at hr)
  intro items
  induction items with
  | nil => intro st hst; exact hst
  | cons i rest ih =>
    intro st hst
    rw [List.foldl_cons]
    apply ih
    rcases orgStep_dry_logs moveFails st i with h | h
    · rw [h]; exact hst
    · rw [h]
      intro r hr
      rcases List.mem_append.mp hr with h1 | h1
      · exact hst r h1
      · have : r = (i.1, getCategory (getExtension i.1), i.1) := by simpa using h1
        rw [this]

/-- C5 witness: on a one-file directory the preview's single record predicts
the file's own name. -/
theorem organize_preview_dest_is_original_witness :
    (("photo.jpg", "images", "photo.jpg") : String × String × String).2.2 = "photo.jpg" :=
  organize_preview_dest_is_original [("photo.jpg", Node.file "p")] (fun _ => false)
    ("photo.jpg", "images", "photo.jpg") (by decide)

/-- C5 counterexample: with `images/photo.jpg` already on disk, the preview
for root file `photo.jpg` predicts the unsuffixed name `photo.jpg`, while an
immediate real run chooses `photo_1.jpg`; the claim's predicted suffix is
absent. -/
theorem organize_preview_collision_counterexample :
    destExists [("photo.jpg", Node.file "c"),
        ("images", Node.dir [("photo.jpg", Node.file "d")])] "images" "photo.jpg" = true ∧
    (organize true (fun _ => false)
        [("photo.jpg", Node.file "c"),
         ("images", Node.dir [("photo.jpg", Node.file "d")])]).logs
      = [("photo.jpg", "images", "photo.jpg")] ∧
    (organize false (fun _ => false)
        [("photo.jpg", Node.file "c"),
         ("images", Node.dir [("photo.jpg", Node.file "d")])]).logs
      = [("photo.jpg", "images", "photo_1.jpg")] ∧
    ("photo.jpg" : String) ≠ "photo_1.jpg" := by
  refine ⟨rfl, rfl, rfl, by decide⟩

/-! ## Supporting lemmas for the apply-mode `organize` theorems -/

theorem mem_of_alookup_eq_some {κ α : Type} [DecidableEq κ] {l : List (κ × α)} {k : κ} {v : α}
    (h : alookup l k = some v) : (k, v) ∈ l := by
  induction l with
  | nil => simp [alookup] at h
  | cons p rest ih =>
    obtain ⟨m, w⟩ := p
    rw [alookup] at h
    by_cases hm : m = k
    · simp [hm] at h
      simp [hm, h]
    · simp [hm] at h
      exact List.mem_cons_of_mem _ (ih h)

theorem alookup_eq_some_of_mem_nodup {κ α : Type} [DecidableEq κ] {l : List (κ × α)} {k : κ}
    {v : α} (hnd : (l.map Prod.fst).Nodup) (h : (k, v) ∈ l) : alookup l k = some v := by
  induction l with
  | nil => simp at h
  | cons p rest ih =>
    obtain ⟨m, w⟩ := p
    rw [List.map_cons, List.nodup_cons] at hnd
    rw [alookup]
    rcases List.mem_cons.mp h with h1 | h1
    · rw [Prod.mk.injEq] at h1
      rw [if_pos h1.1.symm, ← h1.2]
    · by_cases hm : m = k
      · exfalso
        apply hnd.1
        rw [hm]
        exact List.mem_map.mpr ⟨(k, v), h1, rfl⟩
      · simp only [hm, if_false]
        exact ih hnd.2 h1

theorem alookup_isSome_of_mem_keys {κ α : Type} [DecidableEq κ] {l : List (κ × α)} {k : κ}
    (h : k ∈ l.map Prod.fst) : (alookup l k).isSome := by
  induction l with
  | nil => simp at h
  | cons p rest ih =>
    obtain ⟨m, w⟩ := p
    rw [alookup]
    by_cases hm : m = k
    · simp [hm]
    · rw [List.map_cons] at h
      simp only [hm, if_false]
      rcases List.mem_cons.mp h with h1 | h1
      · exact absurd h1.symm hm
      · exact ih h1

theorem alookup_append {κ α : Type} [DecidableEq κ] (l l' : List (κ × α)) (k : κ) :
    alookup (l ++ l') k =
      match alookup l k with
      | some v => some v
      | none => alookup l' k := by
  induction l with
  | nil => simp [alookup]
  | cons p rest ih =>
    obtain ⟨m, w⟩ := p
    by_cases hm : m = k <;> simp [alookup, hm, ih]

theorem aerase_sublist {κ α : Type} [DecidableEq κ] (l : List (κ × α)) (k : κ) :
    (aerase l k).Sublist l := by
  induction l with
  | nil => simp [aerase]
  | cons p rest ih =>
    obtain ⟨m, w⟩ := p
    rw [aerase]
    by_cases hm : m = k
    · simp [hm]
    · simp only [hm, if_false]
      exact ih.cons₂ (m, w)

theorem mem_aerase_of_ne {κ α : Type} [DecidableEq κ] {l : List (κ × α)} {k n : κ} {v : α}
    (hne : n ≠ k) (h : (n, v) ∈ l) : (n, v) ∈ aerase l k := by
  induction l with
  | nil => simp at h
  | cons p rest ih =>
    obtain ⟨m, w⟩ := p
    rw [aerase]
    by_cases hm : m = k
    · simp only [hm, if_pos rfl]
      rcases List.mem_cons.mp h with h1 | h1
      · exfalso
        apply hne
        rw [← hm]
        exact congrArg Prod.fst h1
      · exact h1
    · simp only [hm, if_false]
      rcases List.mem_cons.mp h with h1 | h1
      · exact h1 ▸ List.mem_cons_self _ _
      · exact List.mem_cons_of_mem _ (ih h1)

theorem not_mem_keys_aerase {κ α : Type} [DecidableEq κ] {l : List (κ × α)} {k : κ}
    (hnd : (l.map Prod.fst).Nodup) : k ∉ (aerase l k).map Prod.fst := by
  induction l with
  | nil => simp [aerase]
  | cons p rest ih =>
    obtain ⟨m, w⟩ := p
    rw [List.map_cons, List.nodup_cons] at hnd
    rw [aerase]
    by_cases hm : m = k
    · rw [if_pos hm]
      rw [hm] at hnd
      exact hnd.1
    · rw [if_neg hm]
      simp only [List.map_cons, List.mem_cons]
      rintro (h | h)
      · exact hm h.symm
      · exact ih hnd.2 h

theorem addToDir_keys (l : List (String × Node)) (cat dn : String) (nd : Node) :
    (addToDir l cat dn nd).map Prod.fst = l.map Prod.fst := by
  induction l with
  | nil => rfl
  | cons p rest ih =>
    obtain ⟨m, v⟩ := p
    cases v with
    | file c =>
      rw [addToDir]
      by_cases hm : m = cat <;> simp [hm, ih]
    | dir es =>
      rw [addToDir]
      by_cases hm : m = cat <;> simp [hm, ih]

theorem file_mem_of_mem_addToDir {l : List (String × Node)} {cat dn n : String} {nd : Node}
    {c : String} (h : (n, Node.file c) ∈ addToDir l cat dn nd) : (n, Node.file c) ∈ l := by
  induction l with
  | nil => simp [addToDir] at h
  | cons p rest ih =>
    obtain ⟨m, v⟩ := p
    cases v with
    | file d =>
      rw [addToDir] at h
      by_cases hm : m = cat
      · rw [if_pos hm] at h
        exact h
      · rw [if_neg hm] at h
        rcases List.mem_cons.mp h with h1 | h1
        · exact h1 ▸ List.mem_cons_self _ _
        · exact List.mem_cons_of_mem _ (ih h1)
    | dir es =>
      rw [addToDir] at h
      by_cases hm : m = cat
      · rw [if_pos hm] at h
        rcases List.mem_cons.mp h with h1 | h1
        · simp at h1
        · exact List.mem_cons_of_mem _ h1
      · rw [if_neg hm] at h
        rcases List.mem_cons.mp h with h1 | h1
        · simp at h1
        · exact List.mem_cons_of_mem _ (ih h1)

theorem file_mem_addToDir_of_mem {l : List (String × Node)} {cat dn n : String} {nd : Node}
    {c : String} (h : (n, Node.file c) ∈ l) : (n, Node.file c) ∈ addToDir l cat dn nd := by
  induction l with
  | nil => simp at h
  | cons p rest ih =>
    obtain ⟨m, v⟩ := p
    cases v with
    | file d =>
      rw [addToDir]
      by_cases hm : m = cat
      · rw [if_pos hm]
        exact h
      · rw [if_neg hm]
        rcases List.mem_cons.mp h with h1 | h1
        · exact h1 ▸ List.mem_cons_self _ _
        · exact List.mem_cons_of_mem _ (ih h1)
    | dir es =>
      rw [addToDir]
      by_cases hm : m = cat
      · rw [if_pos hm]
        rcases List.mem_cons.mp h with h1 | h1
        · simp at h1
        · exact List.mem_cons_of_mem _ h1
      · rw [if_neg hm]
        rcases List.mem_cons.mp h with h1 | h1
        · simp at h1
        · exact List.mem_cons_of_mem _ (ih h1)

theorem appendResult_keys (R : List (String × List String)) (cat n : String) :
    (appendResult R cat n).map Prod.fst = R.map Prod.fst := by
  induction R with
  | nil => rfl
  | cons p rest ih =>
    obtain ⟨c, l⟩ := p
    rw [appendResult]
    by_cases hc : c = cat
    · simp [hc]
    · simp [hc, ih]

theorem alookup_appendResult_self (R : List (String × List String)) (cat n : String)
    (l : List String) (h : alookup R cat = some l) :
    alookup (appendResult R cat n) cat = some (l ++ [n]) := by
  induction R with
  | nil => simp [alookup] at h
  | cons p rest ih =>
    obtain ⟨c, l0⟩ := p
    rw [alookup] at h
    rw [appendResult]
    by_cases hc : c = cat
    · rw [if_pos hc, alookup, if_pos hc]
      rw [if_pos hc] at h
      rw [Option.some.inj h]
    · rw [if_neg hc, alookup, if_neg hc]
      rw [if_neg hc] at h
      exact ih h

theorem alookup_appendResult_ne (R : List (String × List String)) (cat n k : String)
    (hk : k ≠ cat) : alookup (appendResult R cat n) k = alookup R k := by
  induction R with
  | nil => simp [appendResult]
  | cons p rest ih =>
    obtain ⟨c, l0⟩ := p
    rw [appendResult]
    by_cases hc : c = cat
    · have hck : c ≠ k := fun h => hk (h ▸ hc)
      rw [if_pos hc, alookup, if_neg hck, alookup, if_neg hck]
    · rw [if_neg hc, alookup, alookup]
      by_cases hck : c = k
      · rw [if_pos hck, if_pos hck]
      · rw [if_neg hck, if_neg hck, ih]

theorem alookup_appendResult_none (R : List (String × List String)) (cat n k : String)
    (h : alookup R k = none) : alookup (appendResult R cat n) k = none := by
  induction R with
  | nil => simp [appendResult, alookup]
  | cons p rest ih =>
    obtain ⟨c, l0⟩ := p
    rw [alookup] at h
    by_cases hck : c = k
    · rw [if_pos hck] at h
      cases h
    · rw [if_neg hck] at h
      rw [appendResult]
      by_cases hc : c = cat
      · rw [if_pos hc, alookup, if_neg hck]
        exact h
      · rw [if_neg hc, alookup, if_neg hck]
        exact ih h

/-! ## Apply-mode step characterization -/

/-- The names of the target directory's entries are distinct (true of a real
directory listing). -/
def NamesNodup (fs : List (String × Node)) : Prop := (fs.map Prod.fst).Nodup

/-- No root *file* bears a category name (such a file would shadow the
category directory and make every move into that category fail). -/
def noShadow (fs : List (String × Node)) : Prop :=
  ∀ p ∈ fs, p.1 ∈ categoryNames → isFileNode p.2 = false

/-- The category a root entry named `m` is filed under. -/
def itemCat (m : String) : String := getCategory (getExtension m)

/-- The directory state after the `category_dir.mkdir(exist_ok=True)` step of
apply mode. -/
def applyFs1 (fs : List (String × Node)) (cat : String) : List (String × Node) :=
  if (alookup fs cat).isSome then fs else fs ++ [(cat, Node.dir [])]

/-- The destination name apply mode chooses (the collision loop's result). -/
def applyDest (fs1 : List (String × Node)) (cat m : String) : String :=
  collisionLoop fs1 cat (pyStem m) (pySuffix m) (dirLen fs1 cat + 1) 1 m

theorem orgStep_apply_eq (mf : String → Bool) (st : OrgSt) (m : String) (ndm : Node) :
    orgStep false mf st (m, ndm) =
      if isDirAt st.fs m || startsWithDot m then st
      else
        match alookup (applyFs1 st.fs (itemCat m)) m with
        | some nd =>
          if isDirAt (applyFs1 st.fs (itemCat m)) (itemCat m) && !mf m then
            { fs := addToDir (aerase (applyFs1 st.fs (itemCat m)) m) (itemCat m)
                      (applyDest (applyFs1 st.fs (itemCat m)) (itemCat m) m) nd,
              result := appendResult st.result (itemCat m) m,
              logs := st.logs ++
                [(m, itemCat m, applyDest (applyFs1 st.fs (itemCat m)) (itemCat m) m)],
              errs := st.errs }
          else { st with fs := applyFs1 st.fs (itemCat m), errs := st.errs ++ [m] }
        | none => { st with fs := applyFs1 st.fs (itemCat m), errs := st.errs ++ [m] } := by
  unfold orgStep applyFs1 itemCat applyDest
  simp only [Bool.or_false]
  rfl

theorem getCategoryAux_mem (L : List (String × List String)) (e : String) :
    getCategoryAux L e ∈ L.map Prod.fst ++ ["other"] := by
  induction L with
  | nil => simp [getCategoryAux]
  | cons p rest ih =>
    obtain ⟨c, exts⟩ := p
    rw [getCategoryAux]
    by_cases he : e ∈ exts
    · simp [he]
    · simp only [he, if_false, List.map_cons]
      rcases List.mem_append.mp ih with h | h
      · exact List.mem_append.mpr (Or.inl (List.mem_cons_of_mem _ h))
      · exact List.mem_append.mpr (Or.inr h)

theorem itemCat_mem_categoryNames (m : String) : itemCat m ∈ categoryNames :=
  getCategoryAux_mem FILE_TYPES (getExtension m)

theorem applyFs1_files {fs : List (String × Node)} {cat n : String} {c : String} :
    (n, Node.file c) ∈ applyFs1 fs cat ↔ (n, Node.file c) ∈ fs := by
  unfold applyFs1
  by_cases h : (alookup fs cat).isSome
  · simp [h]
  · simp only [h, if_false]
    constructor
    · intro hm
      rcases List.mem_append.mp hm with h1 | h1
      · exact h1
      · simp at h1
    · intro hm
      exact List.mem_append.mpr (Or.inl hm)

theorem applyFs1_nodup {fs : List (String × Node)} {cat : String} (hnd : NamesNodup fs) :
    NamesNodup (applyFs1 fs cat) := by
  unfold applyFs1
  by_cases h : (alookup fs cat).isSome
  · simpa [h] using hnd
  · rw [if_neg h]
    unfold NamesNodup at hnd ⊢
    rw [List.map_append]
    simp only [List.map_cons, List.map_nil]
    rw [List.nodup_append]
    refine ⟨hnd, List.nodup_singleton _, ?_⟩
    intro a ha hb
    simp at hb
    subst hb
    exact h (alookup_isSome_of_mem_keys ha)

theorem applyFs1_noShadow {fs : List (String × Node)} {cat : String} (hsh : noShadow fs) :
    noShadow (applyFs1 fs cat) := by
  unfold applyFs1
  by_cases h : (alookup fs cat).isSome
  · simpa [h] using hsh
  · rw [if_neg h]
    intro p hp hcat
    rcases List.mem_append.mp hp with h1 | h1
    · exact hsh p h1 hcat
    · simp only [List.mem_singleton] at h1
      rw [h1]
      rfl

theorem applyFs1_lookup {fs : List (String × Node)} {cat k : String} (hk : k ≠ cat) :
    alookup (applyFs1 fs cat) k = alookup fs k := by
  unfold applyFs1
  by_cases h : (alookup fs cat).isSome
  · simp [h]
  · rw [if_neg h, alookup_append]
    cases hfs : alookup fs k with
    | some v => rfl
    | none =>
      show alookup [(cat, Node.dir [])] k = none
      rw [alookup, if_neg (fun he => hk he.symm)]
      rfl

theorem applyFs1_isDirAt_cat {fs : List (String × Node)} {cat : String} (hsh : noShadow fs)
    (hcat : cat ∈ categoryNames) : isDirAt (applyFs1 fs cat) cat = true := by
  unfold applyFs1
  cases hl : alookup fs cat with
  | some nd =>
    simp only [hl, Option.isSome_some, if_true]
    have hmem := mem_of_alookup_eq_some hl
    have := hsh (cat, nd) hmem hcat
    unfold isDirAt
    rw [hl]
    cases nd with
    | file c => simp [isFileNode] at this
    | dir es => rfl
  | none =>
    rw [if_neg (by simp)]
    unfold isDirAt
    rw [alookup_append, hl]
    show isDirNode (alookup [(cat, Node.dir [])] cat) = true
    rw [alookup, if_pos rfl]
    rfl

theorem applyFs1_lookup_of_some {fs : List (String × Node)} {cat k : String} {v : Node}
    (h : alookup fs k = some v) : alookup (applyFs1 fs cat) k = some v := by
  unfold applyFs1
  by_cases hc : (alookup fs cat).isSome
  · simp [hc, h]
  · rw [if_neg hc, alookup_append, h]

theorem orgStep_apply_skip (mf : String → Bool) (st : OrgSt) (m : String) (ndm : Node)
    (h : (isDirAt st.fs m || startsWithDot m) = true) :
    orgStep false mf st (m, ndm) = st := by
  rw [orgStep_apply_eq, if_pos h]

theorem orgStep_apply_file_mem {mf : String → Bool} {st : OrgSt} {m : String} {ndm : Node}
    {n d : String} (h : (n, Node.file d) ∈ (orgStep false mf st (m, ndm)).fs) :
    (n, Node.file d) ∈ st.fs := by
  rw [orgStep_apply_eq] at h
  by_cases hskip : (isDirAt st.fs m || startsWithDot m) = true
  · rw [if_pos hskip] at h; exact h
  · rw [if_neg hskip] at h
    cases hma : alookup (applyFs1 st.fs (itemCat m)) m with
    | none =>
      simp only [hma] at h
      exact applyFs1_files.mp h
    | some nd =>
      simp only [hma] at h
      by_cases hcond : (isDirAt (applyFs1 st.fs (itemCat m)) (itemCat m) && !mf m) = true
      · rw [if_pos hcond] at h
        simp only at h
        exact applyFs1_files.mp ((aerase_sublist _ _).subset (file_mem_of_mem_addToDir h))
      · rw [if_neg hcond] at h
        simp only at h
        exact applyFs1_files.mp h


theorem orgStep_apply_some_eq (mf : String → Bool) (st : OrgSt) (m : String) (ndm nd : Node)
    (hskip : ¬((isDirAt st.fs m || startsWithDot m) = true))
    (hma : alookup (applyFs1 st.fs (itemCat m)) m = some nd) :
    orgStep false mf st (m, ndm) =
      if isDirAt (applyFs1 st.fs (itemCat m)) (itemCat m) && !mf m then
        { fs := addToDir (aerase (applyFs1 st.fs (itemCat m)) m) (itemCat m)
                  (applyDest (applyFs1 st.fs (itemCat m)) (itemCat m) m) nd,
          result := appendResult st.result (itemCat m) m,
          logs := st.logs ++
            [(m, itemCat m, applyDest (applyFs1 st.fs (itemCat m)) (itemCat m) m)],
          errs := st.errs }
      else { st with fs := applyFs1 st.fs (itemCat m), errs := st.errs ++ [m] } := by
  rw [orgStep_apply_eq, if_neg hskip, hma]

theorem orgStep_apply_none_eq (mf : String → Bool) (st : OrgSt) (m : String) (ndm : Node)
    (hskip : ¬((isDirAt st.fs m || startsWithDot m) = true))
    (hma : alookup (applyFs1 st.fs (itemCat m)) m = none) :
    orgStep false mf st (m, ndm) =
      { st with fs := applyFs1 st.fs (itemCat m), errs := st.errs ++ [m] } := by
  rw [orgStep_apply_eq, if_neg hskip, hma]

theorem orgStep_apply_file_preserved {mf : String → Bool} {st : OrgSt} {m : String} {ndm : Node}
    {n d : String} (hmem : (n, Node.file d) ∈ st.fs) (hne : n ≠ m) :
    (n, Node.file d) ∈ (orgStep false mf st (m, ndm)).fs := by
  by_cases hskip : (isDirAt st.fs m || startsWithDot m) = true
  · rw [orgStep_apply_skip mf st m ndm hskip]; exact hmem
  · cases hma : alookup (applyFs1 st.fs (itemCat m)) m with
    | none =>
      rw [orgStep_apply_none_eq mf st m ndm hskip hma]
      exact applyFs1_files.mpr hmem
    | some nd =>
      rw [orgStep_apply_some_eq mf st m ndm nd hskip hma]
      by_cases hcond : (isDirAt (applyFs1 st.fs (itemCat m)) (itemCat m) && !mf m) = true
      · rw [if_pos hcond]
        exact file_mem_addToDir_of_mem (mem_aerase_of_ne hne (applyFs1_files.mpr hmem))
      · rw [if_neg hcond]
        exact applyFs1_files.mpr hmem

theorem orgStep_apply_nodup {mf : String → Bool} {st : OrgSt} {m : String} {ndm : Node}
    (hnd : NamesNodup st.fs) : NamesNodup (orgStep false mf st (m, ndm)).fs := by
  by_cases hskip : (isDirAt st.fs m || startsWithDot m) = true
  · rw [orgStep_apply_skip mf st m ndm hskip]; exact hnd
  · cases hma : alookup (applyFs1 st.fs (itemCat m)) m with
    | none =>
      rw [orgStep_apply_none_eq mf st m ndm hskip hma]
      exact applyFs1_nodup hnd
    | some nd =>
      rw [orgStep_apply_some_eq mf st m ndm nd hskip hma]
      by_cases hcond : (isDirAt (applyFs1 st.fs (itemCat m)) (itemCat m) && !mf m) = true
      · rw [if_pos hcond]
        show NamesNodup (addToDir (aerase (applyFs1 st.fs (itemCat m)) m) (itemCat m) _ nd)
        unfold NamesNodup
        rw [addToDir_keys]
        exact ((aerase_sublist _ _).map Prod.fst).nodup (applyFs1_nodup hnd)
      · rw [if_neg hcond]
        exact applyFs1_nodup hnd

theorem orgStep_apply_noShadow {mf : String → Bool} {st : OrgSt} {m : String} {ndm : Node}
    (hsh : noShadow st.fs) : noShadow (orgStep false mf st (m, ndm)).fs := by
  by_cases hskip : (isDirAt st.fs m || startsWithDot m) = true
  · rw [orgStep_apply_skip mf st m ndm hskip]; exact hsh
  · cases hma : alookup (applyFs1 st.fs (itemCat m)) m with
    | none =>
      rw [orgStep_apply_none_eq mf st m ndm hskip hma]
      exact applyFs1_noShadow hsh
    | some nd =>
      rw [orgStep_apply_some_eq mf st m ndm nd hskip hma]
      by_cases hcond : (isDirAt (applyFs1 st.fs (itemCat m)) (itemCat m) && !mf m) = true
      · rw [if_pos hcond]
        intro p hp hcat
        obtain ⟨pn, pv⟩ := p
        cases pv with
        | dir es => rfl
        | file d =>
          have hp' : (pn, Node.file d) ∈ applyFs1 st.fs (itemCat m) :=
            (aerase_sublist _ _).subset (file_mem_of_mem_addToDir hp)
          exact applyFs1_noShadow hsh _ hp' hcat
      · rw [if_neg hcond]
        exact applyFs1_noShadow hsh

theorem orgStep_apply_result_cases (mf : String → Bool) (st : OrgSt) (m : String) (ndm : Node) :
    (orgStep false mf st (m, ndm)).result = st.result ∨
    (orgStep false mf st (m, ndm)).result = appendResult st.result (itemCat m) m := by
  by_cases hskip : (isDirAt st.fs m || startsWithDot m) = true
  · rw [orgStep_apply_skip mf st m ndm hskip]; left; rfl
  · cases hma : alookup (applyFs1 st.fs (itemCat m)) m with
    | none =>
      rw [orgStep_apply_none_eq mf st m ndm hskip hma]
      left; rfl
    | some nd =>
      rw [orgStep_apply_some_eq mf st m ndm nd hskip hma]
      by_cases hcond : (isDirAt (applyFs1 st.fs (itemCat m)) (itemCat m) && !mf m) = true
      · rw [if_pos hcond]; right; rfl
      · rw [if_neg hcond]; left; rfl

theorem orgStep_apply_errs_cases (mf : String → Bool) (st : OrgSt) (m : String) (ndm : Node) :
    (orgStep false mf st (m, ndm)).errs = st.errs ∨
    (orgStep false mf st (m, ndm)).errs = st.errs ++ [m] := by
  by_cases hskip : (isDirAt st.fs m || startsWithDot m) = true
  · rw [orgStep_apply_skip mf st m ndm hskip]; left; rfl
  · cases hma : alookup (applyFs1 st.fs (itemCat m)) m with
    | none =>
      rw [orgStep_apply_none_eq mf st m ndm hskip hma]
      right; rfl
    | some nd =>
      rw [orgStep_apply_some_eq mf st m ndm nd hskip hma]
      by_cases hcond : (isDirAt (applyFs1 st.fs (itemCat m)) (itemCat m) && !mf m) = true
      · rw [if_pos hcond]; left; rfl
      · rw [if_neg hcond]; right; rfl

theorem orgStep_apply_success {mf : String → Bool} {st : OrgSt} {m : String} {ndm : Node}
    {c : String} (hnd : NamesNodup st.fs) (hsh : noShadow st.fs)
    (hmem : (m, Node.file c) ∈ st.fs) (hhid : startsWithDot m = false) (hmf : mf m = false) :
    (orgStep false mf st (m, ndm)).result = appendResult st.result (itemCat m) m ∧
    (orgStep false mf st (m, ndm)).errs = st.errs ∧
    ∀ n d, (n, Node.file d) ∈ (orgStep false mf st (m, ndm)).fs → n ≠ m := by
  have hlook : alookup st.fs m = some (Node.file c) := alookup_eq_some_of_mem_nodup hnd hmem
  have hskip : ¬((isDirAt st.fs m || startsWithDot m) = true) := by
    unfold isDirAt
    rw [hlook, hhid]
    simp [isDirNode]
  have hma : alookup (applyFs1 st.fs (itemCat m)) m = some (Node.file c) :=
    applyFs1_lookup_of_some hlook
  have hdir : isDirAt (applyFs1 st.fs (itemCat m)) (itemCat m) = true :=
    applyFs1_isDirAt_cat hsh (itemCat_mem_categoryNames m)
  have hcond : (isDirAt (applyFs1 st.fs (itemCat m)) (itemCat m) && !mf m) = true := by
    rw [hdir, hmf]; rfl
  rw [orgStep_apply_some_eq mf st m ndm (Node.file c) hskip hma, if_pos hcond]
  refine ⟨rfl, rfl, ?_⟩
  intro n d hn hcontra
  subst hcontra
  exact not_mem_keys_aerase (applyFs1_nodup hnd)
    (List.mem_map.mpr ⟨(n, Node.file d), file_mem_of_mem_addToDir hn, rfl⟩)

theorem orgStep_apply_fail {mf : String → Bool} {st : OrgSt} {m : String} {ndm : Node}
    {c : String} (hnd : NamesNodup st.fs)
    (hmem : (m, Node.file c) ∈ st.fs) (hhid : startsWithDot m = false) (hmf : mf m = true) :
    (orgStep false mf st (m, ndm)).result = st.result ∧
    (orgStep false mf st (m, ndm)).errs = st.errs ++ [m] := by
  have hlook : alookup st.fs m = some (Node.file c) := alookup_eq_some_of_mem_nodup hnd hmem
  have hskip : ¬((isDirAt st.fs m || startsWithDot m) = true) := by
    unfold isDirAt
    rw [hlook, hhid]
    simp [isDirNode]
  have hma : alookup (applyFs1 st.fs (itemCat m)) m = some (Node.file c) :=
    applyFs1_lookup_of_some hlook
  have hcond : ¬((isDirAt (applyFs1 st.fs (itemCat m)) (itemCat m) && !mf m) = true) := by
    rw [hmf]
    simp
  rw [orgStep_apply_some_eq mf st m ndm (Node.file c) hskip hma, if_neg hcond]
  exact ⟨rfl, rfl⟩

theorem fold_errs_mono (mf : String → Bool) :
    ∀ (items : List (String × Node)) (st : OrgSt) (x : String),
      x ∈ st.errs → x ∈ (List.foldl (orgStep false mf) st items).errs := by
  intro items
  induction items with
  | nil => intro st x hx; exact hx
  | cons i rest ih =>
    intro st x hx
    rw [List.foldl_cons]
    apply ih
    obtain ⟨m, ndm⟩ := i
    rcases orgStep_apply_errs_cases mf st m ndm with h | h
    · rw [h]; exact hx
    · rw [h]; exact List.mem_append_left _ hx

theorem fold_result_mem_mono (mf : String → Bool) :
    ∀ (items : List (String × Node)) (st : OrgSt) (k : String) (l : List String) (x : String),
      alookup st.result k = some l → x ∈ l →
      ∃ l', alookup (List.foldl (orgStep false mf) st items).result k = some l' ∧ x ∈ l' := by
  intro items
  induction items with
  | nil => intro st k l x hl hx; exact ⟨l, hl, hx⟩
  | cons i rest ih =>
    intro st k l x hl hx
    rw [List.foldl_cons]
    obtain ⟨m, ndm⟩ := i
    rcases orgStep_apply_result_cases mf st m ndm with h | h
    · exact ih _ k l x (h ▸ hl) hx
    · by_cases hk : k = itemCat m
      · refine ih _ k (l ++ [m]) x ?_ (List.mem_append_left _ hx)
        rw [h, hk]
        exact alookup_appendResult_self _ _ _ _ (hk ▸ hl)
      · refine ih _ k l x ?_ hx
        rw [h, alookup_appendResult_ne _ _ _ _ hk]
        exact hl

theorem appendResult_notmem (R : List (String × List String)) (cat nm x : String)
    (hx : ∀ k l, alookup R k = some l → x ∉ l) (hne : x ≠ nm) :
    ∀ k l, alookup (appendResult R cat nm) k = some l → x ∉ l := by
  intro k l hl
  by_cases hk : k = cat
  · subst hk
    cases hR : alookup R k with
    | none =>
      rw [alookup_appendResult_none R k nm k hR] at hl
      cases hl
    | some l0 =>
      rw [alookup_appendResult_self R k nm l0 hR] at hl
      obtain rfl : l0 ++ [nm] = l := Option.some.inj hl
      intro hmem
      rcases List.mem_append.mp hmem with h1 | h1
      · exact hx k l0 hR h1
      · rw [List.mem_singleton] at h1
        exact hne h1
  · rw [alookup_appendResult_ne R cat nm k hk] at hl
    exact hx k l hl

theorem fold_result_notmem (mf : String → Bool) :
    ∀ (items : List (String × Node)) (st : OrgSt) (x : String),
      x ∉ items.map Prod.fst →
      (∀ k l, alookup st.result k = some l → x ∉ l) →
      ∀ k l, alookup (List.foldl (orgStep false mf) st items).result k = some l → x ∉ l := by
  intro items
  induction items with
  | nil => intro st x _ hx; exact hx
  | cons i rest ih =>
    intro st x hxn hx
    rw [List.foldl_cons]
    obtain ⟨m, ndm⟩ := i
    rw [List.map_cons] at hxn
    have hxm : x ≠ m := fun he => hxn (he ▸ List.mem_cons_self _ _)
    have hxr : x ∉ rest.map Prod.fst := fun he => hxn (List.mem_cons_of_mem _ he)
    apply ih _ x hxr
    rcases orgStep_apply_result_cases mf st m ndm with h | h
    · rw [h]; exact hx
    · rw [h]; exact appendResult_notmem st.result (itemCat m) m x hx hxm

theorem orgStep_apply_resultKeys (mf : String → Bool) (st : OrgSt) (m : String) (ndm : Node)
    (h : ∀ k, k ∈ categoryNames → ∃ l, alookup st.result k = some l) :
    ∀ k, k ∈ categoryNames → ∃ l, alookup (orgStep false mf st (m, ndm)).result k = some l := by
  rcases orgStep_apply_result_cases mf st m ndm with he | he <;> rw [he]
  · exact h
  · intro k hk
    obtain ⟨l, hl⟩ := h k hk
    by_cases hkc : k = itemCat m
    · subst hkc
      exact ⟨l ++ [m], alookup_appendResult_self _ _ _ _ hl⟩
    · refine ⟨l, ?_⟩
      rw [alookup_appendResult_ne _ _ _ _ hkc]
      exact hl

theorem processApply_tracks (mf : String → Bool) :
    ∀ (items : List (String × Node)) (st : OrgSt),
      NamesNodup st.fs → noShadow st.fs →
      (∀ k, k ∈ categoryNames → ∃ l, alookup st.result k = some l) →
      (items.map Prod.fst).Nodup →
      ∀ n c, (n, Node.file c) ∈ items → (n, Node.file c) ∈ st.fs →
        startsWithDot n = false →
        (∀ k l, alookup st.result k = some l → n ∉ l) →
        (mf n = true → n ∈ (List.foldl (orgStep false mf) st items).errs ∧
          ∀ k l, alookup (List.foldl (orgStep false mf) st items).result k = some l →
            n ∉ l) ∧
        (mf n = false → ∃ l, alookup (List.foldl (orgStep false mf) st items).result
            (itemCat n) = some l ∧ n ∈ l) := by
  intro items
  induction items with
  | nil =>
    intro st _ _ _ _ n c hni
    simp at hni
  | cons i rest ih =>
    intro st hnd hsh hkeys hitems n c hni hmem hhid hnores
    obtain ⟨m, ndm⟩ := i
    rw [List.foldl_cons]
    rw [List.map_cons, List.nodup_cons] at hitems
    rcases List.mem_cons.mp hni with hhead | htail
    · rw [Prod.mk.injEq] at hhead
      obtain ⟨hnm, hndm⟩ := hhead
      subst hnm
      subst hndm
      constructor
      · intro hmf
        obtain ⟨hres, herrs⟩ := @orgStep_apply_fail mf st n (Node.file c) c hnd hmem hhid hmf
        constructor
        · apply fold_errs_mono
          rw [herrs]
          exact List.mem_append_right _ (List.mem_singleton.mpr rfl)
        · apply fold_result_notmem mf rest _ n hitems.1
          rw [hres]
          exact hnores
      · intro hmf
        obtain ⟨hres, _, _⟩ :=
          @orgStep_apply_success mf st n (Node.file c) c hnd hsh hmem hhid hmf
        obtain ⟨l, hl⟩ := hkeys (itemCat n) (itemCat_mem_categoryNames n)
        have hl1 : alookup (orgStep false mf st (n, Node.file c)).result (itemCat n) =
            some (l ++ [n]) := by
          rw [hres]
          exact alookup_appendResult_self _ _ _ _ hl
        exact fold_result_mem_mono mf rest _ (itemCat n) (l ++ [n]) n hl1
          (List.mem_append_right _ (List.mem_singleton.mpr rfl))
    · have hne : n ≠ m := by
        intro he
        subst he
        exact hitems.1 (List.mem_map.mpr ⟨(n, Node.file c), htail, rfl⟩)
      apply ih (orgStep false mf st (m, ndm)) (orgStep_apply_nodup hnd)
        (orgStep_apply_noShadow hsh) (orgStep_apply_resultKeys mf st m ndm hkeys)
        hitems.2 n c htail (orgStep_apply_file_preserved hmem hne) hhid
      rcases orgStep_apply_result_cases mf st m ndm with he | he <;> rw [he]
      · exact hnores
      · exact appendResult_notmem st.result (itemCat m) m n hnores hne

theorem initResult_keys_eq : initResult.map Prod.fst = categoryNames := by decide

theorem initResult_values_nil : ∀ p ∈ initResult, p.2 = ([] : List String) := by decide

/-- C6: in apply mode a failing move (`moveFails n = true`, standing for
`shutil.move` raising for `n`) is caught: `n` lands in the error log, is
excluded from every sequence of the returned mapping, and every other
non-hidden root file whose own move succeeds is still filed under its
category — one file's failure never aborts the batch. -/
theorem organize_move_failure_isolated (fs : List (String × Node)) (mf : String → Bool)
    (hnd : NamesNodup fs) (hsh : noShadow fs) (n c : String)
    (hmem : (n, Node.file c) ∈ fs) (hhid : startsWithDot n = false) :
    (mf n = true → n ∈ (organize false mf fs).errs ∧
      ∀ k l, alookup (organize false mf fs).result k = some l → n ∉ l) ∧
    (mf n = false → ∃ l, alookup (organize false mf fs).result (itemCat n) = some l ∧
      n ∈ l) := by
  unfold organize
  apply processApply_tracks mf fs ⟨fs, initResult, [], []⟩ hnd hsh ?_ hnd n c hmem hmem hhid ?_
  · intro k hk
    have hs : (alookup initResult k).isSome := by
      apply alookup_isSome_of_mem_keys
      rw [initResult_keys_eq]
      exact hk
    exact Option.isSome_iff_exists.mp hs
  · intro k l hl
    have : l = [] := initResult_values_nil (k, l) (mem_of_alookup_eq_some hl)
    rw [this]
    exact List.not_mem_nil n

/-- C6 witness: in a two-file directory where the move of `a.txt` fails, the
theorem applies; `a.txt` is excluded and logged, `b.txt` unaffected. -/
theorem organize_move_failure_isolated_witness :
    (("a.txt" == "a.txt") = true →
      "a.txt" ∈ (organize false (fun s => s == "a.txt")
          [("a.txt", Node.file "x"), ("b.txt", Node.file "y")]).errs ∧
      ∀ k l, alookup (organize false (fun s => s == "a.txt")
          [("a.txt", Node.file "x"), ("b.txt", Node.file "y")]).result k = some l →
        "a.txt" ∉ l) ∧
    (("a.txt" == "a.txt") = false →
      ∃ l, alookup (organize false (fun s => s == "a.txt")
          [("a.txt", Node.file "x"), ("b.txt", Node.file "y")]).result (itemCat "a.txt") =
          some l ∧ "a.txt" ∈ l) :=
  organize_move_failure_isolated [("a.txt", Node.file "x"), ("b.txt", Node.file "y")]
    (fun s => s == "a.txt") (by unfold NamesNodup; decide) (by unfold noShadow; decide)
    "a.txt" "x" (List.mem_cons_self _ _) (by decide)

theorem processApply_no_files_left (mf : String → Bool) (hmf : ∀ s, mf s = false) :
    ∀ (items : List (String × Node)) (st : OrgSt),
      NamesNodup st.fs → noShadow st.fs → (items.map Prod.fst).Nodup →
      (∀ n c, (n, Node.file c) ∈ st.fs → startsWithDot n = false → (n, Node.file c) ∈ items) →
      ∀ n c, (n, Node.file c) ∈ (List.foldl (orgStep false mf) st items).fs →
        startsWithDot n = true := by
  intro items
  induction items with
  | nil =>
    intro st _ _ _ hcover n c hn
    cases hdot : startsWithDot n
    · exact absurd (hcover n c hn hdot) (List.not_mem_nil _)
    · rfl
  | cons i rest ih =>
    intro st hnd hsh hitems hcover n c hn
    obtain ⟨m, ndm⟩ := i
    rw [List.foldl_cons] at hn
    rw [List.map_cons, List.nodup_cons] at hitems
    apply ih (orgStep false mf st (m, ndm)) (orgStep_apply_nodup hnd)
      (orgStep_apply_noShadow hsh) hitems.2 ?_ n c hn
    intro n' c' hn' hhid'
    have hmem : (n', Node.file c') ∈ st.fs := orgStep_apply_file_mem hn'
    rcases List.mem_cons.mp (hcover n' c' hmem hhid') with hh | hh
    · exfalso
      rw [Prod.mk.injEq] at hh
      obtain ⟨h1, _⟩ := hh
      subst h1
      obtain ⟨_, _, hrem⟩ :=
        @orgStep_apply_success mf st n' ndm c' hnd hsh hmem hhid' (hmf n')
      exact hrem n' c' hn' rfl
    · exact hh

theorem fold_skip_all (mf : String → Bool) (st : OrgSt) :
    ∀ items : List (String × Node),
      (∀ p ∈ items, (isDirAt st.fs p.1 || startsWithDot p.1) = true) →
      List.foldl (orgStep false mf) st items = st := by
  intro items
  induction items with
  | nil => intro _; rfl
  | cons i rest ih =>
    intro h
    obtain ⟨m, ndm⟩ := i
    rw [List.foldl_cons, orgStep_apply_skip mf st m ndm (h (m, ndm) (List.mem_cons_self _ _))]
    exact ih (fun p hp => h p (List.mem_cons_of_mem _ hp))

theorem fold_preserves_nodup (mf : String → Bool) :
    ∀ (items : List (String × Node)) (st : OrgSt),
      NamesNodup st.fs → NamesNodup (List.foldl (orgStep false mf) st items).fs := by
  intro items
  induction items with
  | nil => intro st h; exact h
  | cons i rest ih =>
    intro st h
    rw [List.foldl_cons]
    obtain ⟨m, ndm⟩ := i
    exact ih _ (orgStep_apply_nodup h)

/-- A directory whose every non-hidden entry is a subdirectory (or a hidden
file) is left untouched by apply mode, which returns the all-empty mapping. -/
theorem organize_on_settled (mf : String → Bool) (fs : List (String × Node))
    (hnd : NamesNodup fs)
    (hfiles : ∀ n c, (n, Node.file c) ∈ fs → startsWithDot n = true) :
    organize false mf fs = ⟨fs, initResult, [], []⟩ := by
  unfold organize
  apply fold_skip_all
  intro p hp
  obtain ⟨pn, pv⟩ := p
  cases pv with
  | file c =>
    have hdot := hfiles pn c hp
    show (isDirAt fs pn || startsWithDot pn) = true
    rw [hdot]
    exact Bool.or_true _
  | dir es =>
    have hlook : alookup fs pn = some (Node.dir es) := alookup_eq_some_of_mem_nodup hnd hp
    show (isDirAt fs pn || startsWithDot pn) = true
    unfold isDirAt
    rw [hlook]
    rfl

/-- C7 (amended): with no move failing and no category-shadowing root file,
one apply-mode run leaves no non-hidden regular file at the target root
(category subdirectories and any pre-existing subdirectories remain), so an
immediately following apply-mode run finds no organizable file and returns
the mapping that sends every category, `"other"` included, to the empty
sequence. -/
theorem organize_second_run_empty (fs : List (String × Node))
    (hnd : NamesNodup fs) (hsh : noShadow fs) :
    (∀ n c, (n, Node.file c) ∈ (organize false (fun _ => false) fs).fs →
      startsWithDot n = true) ∧
    (organize false (fun _ => false) ((organize false (fun _ => false) fs).fs)).result
      = initResult ∧
    (∀ k, k ∈ categoryNames → alookup initResult k = some ([] : List String)) := by
  have hnofiles : ∀ n c, (n, Node.file c) ∈ (organize false (fun _ => false) fs).fs →
      startsWithDot n = true := by
    unfold organize
    exact processApply_no_files_left (fun _ => false) (fun _ => rfl) fs
      ⟨fs, initResult, [], []⟩ hnd hsh hnd (fun n c h _ => h)
  have hnd1 : NamesNodup (organize false (fun _ => false) fs).fs := by
    unfold organize
    exact fold_preserves_nodup _ fs ⟨fs, initResult, [], []⟩ hnd
  refine ⟨hnofiles, ?_, ?_⟩
  · rw [organize_on_settled _ _ hnd1 hnofiles]
  · decide

/-- C7 witness: a directory holding one text file; the theorem's hypotheses
hold and its conclusion follows. -/
theorem organize_second_run_empty_witness :
    (∀ n c, (n, Node.file c) ∈ (organize false (fun _ => false)
        [("a.txt", Node.file "x")]).fs → startsWithDot n = true) ∧
    (organize false (fun _ => false)
        ((organize false (fun _ => false) [("a.txt", Node.file "x")]).fs)).result
      = initResult ∧
    (∀ k, k ∈ categoryNames → alookup initResult k = some ([] : List String)) :=
  organize_second_run_empty [("a.txt", Node.file "x")]
    (by unfold NamesNodup; decide) (by unfold noShadow; decide)

/-- C7 counterexample: after a full, failure-free apply run, the target root
can still contain a non-hidden subdirectory that is not a category directory
(here `stuff`), so the root does not consist of category subdirectories and
hidden entries alone. -/
theorem organize_root_not_only_categories :
    "stuff" ∈ ((organize false (fun _ => false)
        [("stuff", Node.dir []), ("a.txt", Node.file "x")]).fs).map Prod.fst ∧
    isDirAt (organize false (fun _ => false)
        [("stuff", Node.dir []), ("a.txt", Node.file "x")]).fs "stuff" = true ∧
    ("stuff" ∉ categoryNames) ∧ startsWithDot "stuff" = false := by
  refine ⟨by decide, by decide, by decide, by decide⟩

/-! ## PDFMerger (`src/automation_tools/pdf_merger.py`)

`PDFMerger` accumulates appended documents and `merge` writes their
concatenation to the output path (creating the parent directory), optionally
calling the `_delete_original_files` stub, which only logs a warning. -/

/-- A filesystem path: parent directory segments plus a file name. -/
structure Pth where
  parent : List String
  name : String
  deriving DecidableEq, Repr

/-- Upsert into an association list (writing a file at a path). -/
def setFile {κ α : Type} [DecidableEq κ] : List (κ × α) → κ → α → List (κ × α)
  | [], p, c => [(p, c)]
  | (q, d) :: rest, p, c => if q = p then (p, c) :: rest else (q, d) :: setFile rest p c

structure PdfFS where
  files : List (Pth × String)
  dirs : List (List String)

structure MergerSt where
  output_path : Pth
  docs : List String

/-- `self.output_path.parent.mkdir(parents=True, exist_ok=True)`. -/
def mkdirParents (fs : PdfFS) (d : List String) : PdfFS :=
  if d ∈ fs.dirs then fs else { fs with dirs := fs.dirs ++ [d] }

/-- The merged document: the accumulated inputs' contents in order. -/
def mergedContent (docs : List String) : String := String.join docs

/-- `PDFMerger._delete_original_files`: a stub that only logs
`"Deleting original files is not implemented in this example"` and touches
no file. -/
def deleteOriginalFiles (fs : PdfFS) : PdfFS × List String :=
  (fs, ["Deleting original files is not implemented in this example"])

/-- `PDFMerger.merge(output_path=None, delete_originals=False)`: optionally
override the output path, ensure its parent directory, write the merged PDF,
optionally run the deletion stub; returns the new state, the output path and
the warning log lines. -/
def pdfMerge (st : MergerSt) (outOverride : Option Pth) (delete_originals : Bool)
    (fs : PdfFS) : PdfFS × Pth × List String :=
  let op := match outOverride with | some p => p | none => st.output_path
  let fs1 := mkdirParents fs op.parent
  let fs2 := { fs1 with files := setFile fs1.files op (mergedContent st.docs) }
  if delete_originals then
    let r := deleteOriginalFiles fs2
    (r.1, op, r.2)
  else (fs2, op, [])

theorem mem_setFile {κ α : Type} [DecidableEq κ] (l : List (κ × α)) (q : κ) (v : α)
    (p : κ) (c : α) (h : (p, c) ∈ l) : ∃ c', (p, c') ∈ setFile l q v := by
  induction l with
  | nil => simp at h
  | cons e rest ih =>
    obtain ⟨q0, d⟩ := e
    rw [setFile]
    by_cases hq : q0 = q
    · rw [if_pos hq]
      rcases List.mem_cons.mp h with h1 | h1
      · rw [Prod.mk.injEq] at h1
        refine ⟨v, ?_⟩
        rw [h1.1, ← hq]
        exact List.mem_cons_self _ _
      · exact ⟨c, List.mem_cons_of_mem _ h1⟩
    · rw [if_neg hq]
      rcases List.mem_cons.mp h with h1 | h1
      · exact ⟨c, h1 ▸ List.mem_cons_self _ _⟩
      · obtain ⟨c', hc'⟩ := ih h1
        exact ⟨c', List.mem_cons_of_mem _ hc'⟩

theorem alookup_setFile_ne {κ α : Type} [DecidableEq κ] (l : List (κ × α)) (q : κ) (v : α)
    (p : κ) (hp : p ≠ q) : alookup (setFile l q v) p = alookup l p := by
  have hqp : ¬q = p := fun he => hp he.symm
  induction l with
  | nil =>
    rw [setFile]
    simp [alookup, hqp]
  | cons e rest ih =>
    obtain ⟨q0, d⟩ := e
    rw [setFile]
    by_cases hq : q0 = q
    · have hq0p : ¬q0 = p := fun he => hp ((hq.symm.trans he).symm)
      rw [if_pos hq]
      simp [alookup, hqp, hq0p]
    · rw [if_neg hq]
      by_cases hq0 : q0 = p
      · simp [alookup, hq0]
      · simp [alookup, hq0, ih]

/-- C8: `merge` with `delete_originals = true` deletes nothing: the deletion
path is a stub that returns the filesystem unchanged with only a warning log
line, the resulting filesystem and returned path equal those of a
`delete_originals = false` merge (the runs differ only in that warning
line), and every file present before the merge still exists (at its path)
afterwards. -/
theorem pdfMerge_delete_originals_stub (st : MergerSt) (ov : Option Pth) (fs : PdfFS) :
    (∀ g : PdfFS, (deleteOriginalFiles g).1 = g) ∧
    (pdfMerge st ov true fs).1 = (pdfMerge st ov false fs).1 ∧
    (pdfMerge st ov true fs).2.1 = (pdfMerge st ov false fs).2.1 ∧
    (pdfMerge st ov true fs).2.2 =
      ["Deleting original files is not implemented in this example"] ∧
    (pdfMerge st ov false fs).2.2 = [] ∧
    (∀ p c, (p, c) ∈ fs.files → ∃ c', (p, c') ∈ (pdfMerge st ov true fs).1.files) := by
  refine ⟨fun g => rfl, rfl, rfl, rfl, rfl, ?_⟩
  intro p c hp
  have hp1 : (p, c) ∈ (mkdirParents fs
      (match ov with | some q => q | none => st.output_path).parent).files := by
    unfold mkdirParents
    by_cases hd : (match ov with | some q => q | none => st.output_path).parent ∈ fs.dirs
    · rw [if_pos hd]; exact hp
    · rw [if_neg hd]; exact hp
  exact mem_setFile _ _ _ p c hp1

/-! ## ImageResizer (`src/automation_tools/image_resizer.py`)

Python float arithmetic in the size computation is modelled over exact
rationals, and `int(...)` (truncation; all quantities here are nonnegative)
as the floor.  Python's truthiness drives the `if size: / elif width and
height: / ...` chain: an absent argument and the number 0 are both falsy. -/

/-- A stored image: what `resize_image` reads and what `save` writes. -/
structure ImgData where
  width : Nat
  height : Nat
  mode : String
  format : Option String
  quality : Option Nat
  deriving DecidableEq, Repr

structure ImgFS where
  files : List (Pth × ImgData)
  dirs : List (List String)

/-- `ImageResizer.__init__` state: `output_dir`, upper-cased `output_format`,
default `quality = 85`. -/
structure ResizerCfg where
  output_dir : Option (List String)
  output_format : Option String
  quality : Nat

def mkImageResizer (od : Option (List String)) (ofmt : Option String) : ResizerCfg :=
  { output_dir := od, output_format := ofmt.map upperString, quality := 85 }

/-- `ImageResizer._validate_output_dir`: the configured directory, or
`<input parent>/resized`. -/
def validateOutputDir (cfg : ResizerCfg) (input : Pth) : List String :=
  match cfg.output_dir with
  | some d => d
  | none => input.parent ++ ["resized"]

/-- `ImageResizer._get_output_path`: `<output_dir>/<stem>_resized<ext>` with
`ext` the lower-cased configured format, else the input's lower-cased
suffix. -/
def getOutputPath (cfg : ResizerCfg) (input : Pth) (output_dir : List String) : Pth :=
  let ext := match cfg.output_format with
    | some f => "." ++ lowerString f
    | none => lowerString (pySuffix input.name)
  ⟨output_dir, pyStem input.name ++ "_resized" ++ ext⟩

/-- Python truthiness of an optional int (`None` and `0` are falsy). -/
def truthyNat : Option Nat → Bool
  | none => false
  | some k => decide (k ≠ 0)

/-- Python truthiness of an optional float (`None` and `0.0` are falsy). -/
def truthyRat : Option ℚ → Bool
  | none => false
  | some q => decide (q ≠ 0)

/-- `x or y` for `x` an optional int (`quality or self.quality`). -/
def pyOrNat : Option Nat → Nat → Nat
  | none, d => d
  | some k, d => if k ≠ 0 then k else d

/-- `self.output_format or img.format or 'JPEG'`. -/
def pyOrFmt : Option String → Option String → String
  | some f, _ => f
  | none, some f => f
  | none, none => "JPEG"

/-- `int(q)` for the nonnegative rationals arising in the size chain. -/
def ratNat (q : ℚ) : Nat := Int.toNat q.floor

/-- The `if size: / elif width and height: / elif width: / elif height: /
elif scale: / else raise ValueError` chain computing `new_size`. -/
def newSize (size : Option (Nat × Nat)) (width height : Option Nat) (scale : Option ℚ)
    (w h : Nat) : Except PyErr (Nat × Nat) :=
  match size with
  | some s => Except.ok s
  | none =>
    if truthyNat width && truthyNat height then
      Except.ok (width.getD 0, height.getD 0)
    else if truthyNat width then
      Except.ok (width.getD 0, ratNat ((h : ℚ) * ((width.getD 0 : ℚ) / (w : ℚ))))
    else if truthyNat height then
      Except.ok (ratNat ((w : ℚ) * ((height.getD 0 : ℚ) / (h : ℚ))), height.getD 0)
    else if truthyRat scale then
      Except.ok (ratNat ((w : ℚ) * scale.getD 0), ratNat ((h : ℚ) * scale.getD 0))
    else Except.error PyErr.valueError

/-- `img.convert('RGB')` applied when the mode is RGBA or P. -/
def pilConvert (img : ImgData) : ImgData :=
  if img.mode = "RGBA" ∨ img.mode = "P" then { img with mode := "RGB" } else img

/-- `output_dir.mkdir(parents=True, exist_ok=True)`. -/
def mkdirImg (fs : ImgFS) (d : List String) : ImgFS :=
  { fs with dirs := if d ∈ fs.dirs then fs.dirs else fs.dirs ++ [d] }

/-- What `resized_img.save(output_path, format=..., **save_kwargs)` stores. -/
def savedImg (cfg : ResizerCfg) (img img1 : ImgData) (ns : Nat × Nat)
    (quality : Option Nat) : ImgData :=
  let ofmt := pyOrFmt cfg.output_format img.format
  { width := ns.1, height := ns.2, mode := img1.mode, format := some ofmt,
    quality := if ofmt = "JPEG" ∨ ofmt = "WEBP" then some (pyOrNat quality cfg.quality)
               else none }

/-- The body of `resize_image` after the input-existence check, for the input
image `img`: validate/create the output directory, derive the output path,
convert, compute the new size, resize and save (or propagate the error). -/
def resizeCore (cfg : ResizerCfg) (fs : ImgFS) (input : Pth) (img : ImgData)
    (size : Option (Nat × Nat)) (width height : Option Nat) (scale : Option ℚ)
    (quality : Option Nat) : ImgFS × Except PyErr Pth :=
  let odir := validateOutputDir cfg input
  let fs1 := mkdirImg fs odir
  let out := getOutputPath cfg input odir
  let img1 := pilConvert img
  match newSize size width height scale img1.width img1.height with
  | Except.error e => (fs1, Except.error e)
  | Except.ok ns =>
    ({ fs1 with files := setFile fs1.files out (savedImg cfg img img1 ns quality) },
      Except.ok out)

/-- `ImageResizer.resize_image`.  `maintain_aspect_ratio` is accepted exactly
as in the source, whose body never reads it. -/
def resizeImage (cfg : ResizerCfg) (fs : ImgFS) (input : Pth)
    (size : Option (Nat × Nat)) (width height : Option Nat) (scale : Option ℚ)
    (maintain_aspect_ratio : Bool) (quality : Option Nat) : ImgFS × Except PyErr Pth :=
  match alookup fs.files input with
  | none => (fs, Except.error PyErr.fileNotFoundError)
  | some img => resizeCore cfg fs input img size width height scale quality

/-- The derived output name `<stem>_resized<ext>` can never equal the input
file name: the input's suffix is empty or starts with a dot, while what
follows the stem in the output name starts with an underscore. -/
theorem resized_name_ne (name ext : String) : pyStem name ++ "_resized" ++ ext ≠ name := by
  intro h
  have hd : (pySplitExt name.data).1 ++ "_resized".data ++ ext.data = name.data := by
    have hd0 := congrArg String.data h
    rw [string_data_append, string_data_append] at hd0
    exact hd0
  have hsplit := pySplitExt_append name.data
  have h2 : "_resized".data ++ ext.data = (pySplitExt name.data).2 := by
    apply List.append_cancel_left
    rw [← List.append_assoc]
    exact hd.trans hsplit.symm
  rcases pySplitExt_snd_shape name.data with hs | ⟨rest, hs⟩
  · rw [hs] at h2
    have hlen := congrArg List.length h2
    simp at hlen
  · rw [hs] at h2
    have hcons : "_resized".data ++ ext.data = '_' :: ("resized".data ++ ext.data) := rfl
    rw [hcons] at h2
    have hhead : '_' = '.' := (List.cons.injEq '_' _ '.' _ ▸ h2).1
    exact absurd hhead (by decide)

theorem resizeImage_none_eq (cfg : ResizerCfg) (fs : ImgFS) (input : Pth)
    (size : Option (Nat × Nat)) (width height : Option Nat) (scale : Option ℚ)
    (mar : Bool) (quality : Option Nat) (hl : alookup fs.files input = none) :
    resizeImage cfg fs input size width height scale mar quality =
      (fs, Except.error PyErr.fileNotFoundError) := by
  unfold resizeImage
  rw [hl]

theorem resizeImage_some_eq (cfg : ResizerCfg) (fs : ImgFS) (input : Pth) (img : ImgData)
    (size : Option (Nat × Nat)) (width height : Option Nat) (scale : Option ℚ)
    (mar : Bool) (quality : Option Nat) (hl : alookup fs.files input = some img) :
    resizeImage cfg fs input size width height scale mar quality =
      resizeCore cfg fs input img size width height scale quality := by
  unfold resizeImage
  rw [hl]

theorem resizeCore_err_eq (cfg : ResizerCfg) (fs : ImgFS) (input : Pth) (img : ImgData)
    (size : Option (Nat × Nat)) (width height : Option Nat) (scale : Option ℚ)
    (quality : Option Nat) (e : PyErr)
    (hns : newSize size width height scale (pilConvert img).width (pilConvert img).height =
      Except.error e) :
    resizeCore cfg fs input img size width height scale quality =
      (mkdirImg fs (validateOutputDir cfg input), Except.error e) := by
  simp only [resizeCore]
  rw [hns]

theorem resizeCore_ok_eq (cfg : ResizerCfg) (fs : ImgFS) (input : Pth) (img : ImgData)
    (size : Option (Nat × Nat)) (width height : Option Nat) (scale : Option ℚ)
    (quality : Option Nat) (ns : Nat × Nat)
    (hns : newSize size width height scale (pilConvert img).width (pilConvert img).height =
      Except.ok ns) :
    resizeCore cfg fs input img size width height scale quality =
      ({ files := setFile fs.files (getOutputPath cfg input (validateOutputDir cfg input))
            (savedImg cfg img (pilConvert img) ns quality),
          dirs := (mkdirImg fs (validateOutputDir cfg input)).dirs },
        Except.ok (getOutputPath cfg input (validateOutputDir cfg input))) := by
  simp only [resizeCore]
  rw [hns]
  rfl

/-- C9: `resize_image` only ever writes the freshly derived path
`<output_dir>/<stem>_resized<ext>`, which is never the input path: the
input's stored content is unchanged in every branch, a successful call
returns exactly that derived path, and every other path is untouched. -/
theorem resizeImage_never_writes_input (cfg : ResizerCfg) (fs : ImgFS) (input : Pth)
    (size : Option (Nat × Nat)) (width height : Option Nat) (scale : Option ℚ)
    (mar : Bool) (quality : Option Nat) :
    getOutputPath cfg input (validateOutputDir cfg input) ≠ input ∧
    alookup (resizeImage cfg fs input size width height scale mar quality).1.files input
      = alookup fs.files input ∧
    (∀ out, (resizeImage cfg fs input size width height scale mar quality).2 =
        Except.ok out →
      out = getOutputPath cfg input (validateOutputDir cfg input) ∧
      ∀ p, p ≠ out →
        alookup (resizeImage cfg fs input size width height scale mar quality).1.files p
          = alookup fs.files p) := by
  have hne : getOutputPath cfg input (validateOutputDir cfg input) ≠ input := by
    intro h
    exact resized_name_ne input.name _ (congrArg Pth.name h)
  refine ⟨hne, ?_, ?_⟩
  · cases hl : alookup fs.files input with
    | none =>
      rw [resizeImage_none_eq cfg fs input size width height scale mar quality hl]
      exact hl
    | some img =>
      rw [resizeImage_some_eq cfg fs input img size width height scale mar quality hl]
      cases hns : newSize size width height scale (pilConvert img).width
          (pilConvert img).height with
      | error e =>
        rw [resizeCore_err_eq cfg fs input img size width height scale quality e hns]
        exact hl
      | ok ns =>
        rw [resizeCore_ok_eq cfg fs input img size width height scale quality ns hns]
        exact (alookup_setFile_ne fs.files _ _ input (fun he => hne he.symm)).trans hl
  · intro out hout
    cases hl : alookup fs.files input with
    | none =>
      rw [resizeImage_none_eq cfg fs input size width height scale mar quality hl] at hout
      cases hout
    | some img =>
      rw [resizeImage_some_eq cfg fs input img size width height scale mar quality hl] at hout
      cases hns : newSize size width height scale (pilConvert img).width
          (pilConvert img).height with
      | error e =>
        rw [resizeCore_err_eq cfg fs input img size width height scale quality e hns] at hout
        cases hout
      | ok ns =>
        rw [resizeCore_ok_eq cfg fs input img size width height scale quality ns hns] at hout
        have hout' : getOutputPath cfg input (validateOutputDir cfg input) = out :=
          Except.ok.inj hout
        constructor
        · exact hout'.symm
        · intro p hp
          rw [resizeImage_some_eq cfg fs input img size width height scale mar quality hl,
            resizeCore_ok_eq cfg fs input img size width height scale quality ns hns]
          exact alookup_setFile_ne fs.files _ _ p (fun he => hp (he.trans hout'))

/-- C10: the `maintain_aspect_ratio` parameter is accepted but never read by
`resize_image`: two calls differing only in that flag return the same output
path and write the same resized image to the same filesystem state. -/
theorem resizeImage_ignores_aspect_flag (cfg : ResizerCfg) (fs : ImgFS) (input : Pth)
    (size : Option (Nat × Nat)) (width height : Option Nat) (scale : Option ℚ)
    (quality : Option Nat) :
    resizeImage cfg fs input size width height scale true quality =
      resizeImage cfg fs input size width height scale false quality := rfl
